import Mathlib

/-
Verification development for the symbolic integrators of
src/fem/symbolicintegrator.cpp (namespace ngfem).

The C++ code is shallowly embedded over an arbitrary linear ordered field
(idealizing double arithmetic as exact field arithmetic).  Mutable
buffers become explicit values, per-element mutable state
(ProxyUserData attached to the ElementTransformation) becomes an
explicit record argument, and the external collaborators (the
CoefficientFunction expression tree, the DifferentialOperator, the
quadrature/geometry provider) become function-valued parameters, as the
spec declares them external to this repository.
-/

namespace NgFem

open Matrix

variable {α : Type} [LinearOrderedField α]

/-- Embedding of class ProxyUserData (symbolicintegrator.cpp lines 16-28).
The C++ fields testfunction/test_comp and trialfunction/trial_comp are
paired into one optional (proxy id, component) each; the fields
fel/elx/lh, which are set together and tested through fel, are modelled
as one optional pinned dof vector.  nd is the local dof count of the
element.  The remember cache only short-circuits recomputation of the
same Apply value, so it is not modelled separately. -/
structure ProxyUserData (α : Type) (nd : ℕ) where
  trialfunction : Option (ℕ × ℕ)
  testfunction : Option (ℕ × ℕ)
  pin : Option (Fin nd → α)

/-- Embedding of class ProxyFunction: its immutable identity (id stands
for the C++ object address, testflag for IsTestFunction), its evaluator
DifferentialOperator given by dim (Dimension), used (UsedDofs),
calcMatrix (CalcMatrix at volume quadrature point i), calcMatrixEB
(CalcMatrix at point i of facet k in the element-boundary path), apply
(Apply at point i) and applyTrans (ApplyTrans over an n-point rule).
The operator itself is an external collaborator, hence function-valued
fields. -/
structure ProxyFunction (α : Type) (nd : ℕ) where
  id : ℕ
  testflag : Bool
  dim : ℕ
  used : Finset (Fin nd)
  calcMatrix : ℕ → Matrix (Fin dim) (Fin nd) α
  calcMatrixEB : ℕ → ℕ → Matrix (Fin dim) (Fin nd) α
  apply : (Fin nd → α) → ℕ → Fin dim → α
  applyTrans : ℕ → (ℕ → Fin dim → α) → Fin nd → α

/-- Body of ProxyFunction::Evaluate (lines 52-79) after the userdata
null check, at one mapped point i.  The C++ order is: if
(!testfunction && ud->fel) apply the evaluator to the pinned dofs and
return; otherwise zero the result and write 1 at the active test
component and at the active trial component when this proxy is the
corresponding active proxy (both writes store the literal 1, so the
order of the two writes does not matter). -/
def ProxyFunction.evalCore (p : ProxyFunction α nd) (ud : ProxyUserData α nd)
    (i : ℕ) : Fin p.dim → α :=
  if h : p.testflag = false ∧ ud.pin.isSome then
    p.apply (ud.pin.get h.2) i
  else
    fun c =>
      if ud.testfunction = some (p.id, c.val) ∨ ud.trialfunction = some (p.id, c.val)
      then 1 else 0

/-- ProxyFunction::Evaluate (lines 52-79): throws when the
transformation carries no userdata, otherwise runs the body. -/
def ProxyFunction.Evaluate (p : ProxyFunction α nd)
    (ud? : Option (ProxyUserData α nd)) (i : ℕ) :
    Except String (Fin p.dim → α) :=
  match ud? with
  | none => Except.error ("cannot evaluate ProxyFunction without userdata")
  | some ud => Except.ok (p.evalCore ud i)

/-- Body of ProxyFunction::EvaluateDeriv (lines 90-109) at one point:
deriv and result are zeroed; if (!testfunction && ud->fel) the
evaluator is applied to the pinned dofs into result (no early return);
then the active test component of result and the active trial component
of deriv are overwritten with 1. -/
def ProxyFunction.evalDerivCore (p : ProxyFunction α nd)
    (ud : ProxyUserData α nd) (i : ℕ) :
    (Fin p.dim → α) × (Fin p.dim → α) :=
  let result0 : Fin p.dim → α :=
    if h : p.testflag = false ∧ ud.pin.isSome then
      p.apply (ud.pin.get h.2) i
    else fun _ => 0
  ( fun c => if ud.testfunction = some (p.id, c.val) then 1 else result0 c,
    fun c => if ud.trialfunction = some (p.id, c.val) then 1 else 0 )

/-- ProxyFunction::EvaluateDeriv with the userdata null check. -/
def ProxyFunction.EvaluateDeriv (p : ProxyFunction α nd)
    (ud? : Option (ProxyUserData α nd)) (i : ℕ) :
    Except String ((Fin p.dim → α) × (Fin p.dim → α)) :=
  match ud? with
  | none => Except.error ("cannot evaluate ProxyFunction")
  | some ud => Except.ok (p.evalDerivCore ud i)

/-- Body of ProxyFunction::EvaluateDDeriv (lines 112-142) at one point:
result, deriv and dderiv are zeroed; if (!testfunction && ud->fel) the
evaluator value (possibly served from the remember cache, which holds
the same Apply value) goes into result; then the one-hot marks for the
active test component and the active trial component are both written
into DERIV, and dderiv is left zero. -/
def ProxyFunction.evalDDerivCore (p : ProxyFunction α nd)
    (ud : ProxyUserData α nd) (i : ℕ) :
    (Fin p.dim → α) × (Fin p.dim → α) × (Fin p.dim → α) :=
  let result : Fin p.dim → α :=
    if h : p.testflag = false ∧ ud.pin.isSome then
      p.apply (ud.pin.get h.2) i
    else fun _ => 0
  ( result,
    fun c => if ud.testfunction = some (p.id, c.val) ∨ ud.trialfunction = some (p.id, c.val)
             then 1 else 0,
    fun _ => 0 )

/-- ProxyFunction::EvaluateDDeriv with the userdata null check. -/
def ProxyFunction.EvaluateDDeriv (p : ProxyFunction α nd)
    (ud? : Option (ProxyUserData α nd)) (i : ℕ) :
    Except String ((Fin p.dim → α) × (Fin p.dim → α) × (Fin p.dim → α)) :=
  match ud? with
  | none => Except.error ("cannot evaluate ProxyFunction")
  | some ud => Except.ok (p.evalDDerivCore ud i)

/-
Point-blocked contraction shared by SymbolicBilinearFormIntegrator::
T_CalcElementMatrix (lines 353-407) and SymbolicEnergy::
CalcLinearizedElementMatrix (lines 617-660).  For a block of b points
starting at point i, bdbmat1 stacks the rows of
proxyvalues(ii,STAR,STAR) * bmat1 for ii = i..i+b-1 and bbmat2 stacks
the rows of bmat2; the block is contracted by the single dense multiply
Trans(bbmat2) * bdbmat1.  The stacked row index (j, c) models the C++
row range d2 * IntRange(j, j+1).
-/

/-- Per-point contraction value Trans(bmat2(ii)) * (pv(ii) * bmat1(ii)). -/
def pointContrib {d1 d2 nd : ℕ}
    (bmat1 : ℕ → Matrix (Fin d1) (Fin nd) α)
    (bmat2 : ℕ → Matrix (Fin d2) (Fin nd) α)
    (pv : ℕ → Matrix (Fin d2) (Fin d1) α) (ii : ℕ) :
    Matrix (Fin nd) (Fin nd) α :=
  (bmat2 ii)ᵀ * (pv ii * bmat1 ii)

/-- Stacked matrix bdbmat1 of a block of b points starting at point i:
row (j, c) holds row c of proxyvalues(i+j) * bmat1(i+j). -/
def stackedBDB {d1 d2 nd : ℕ}
    (bmat1 : ℕ → Matrix (Fin d1) (Fin nd) α)
    (pv : ℕ → Matrix (Fin d2) (Fin d1) α) (i b : ℕ) :
    Matrix (Fin b × Fin d2) (Fin nd) α :=
  fun jc w => (pv (i + jc.1.val) * bmat1 (i + jc.1.val)) jc.2 w

/-- Stacked matrix bbmat2 of a block of b points starting at point i:
row (j, c) holds row c of bmat2(i+j). -/
def stackedBB {d2 nd : ℕ}
    (bmat2 : ℕ → Matrix (Fin d2) (Fin nd) α) (i b : ℕ) :
    Matrix (Fin b × Fin d2) (Fin nd) α :=
  fun jc h => bmat2 (i + jc.1.val) jc.2 h

/-- One dense multiply for a block of b points starting at point i. -/
def blockContrib {d1 d2 nd : ℕ}
    (bmat1 : ℕ → Matrix (Fin d1) (Fin nd) α)
    (bmat2 : ℕ → Matrix (Fin d2) (Fin nd) α)
    (pv : ℕ → Matrix (Fin d2) (Fin d1) α) (i b : ℕ) :
    Matrix (Fin nd) (Fin nd) α :=
  (stackedBB bmat2 i b)ᵀ * stackedBDB bmat1 pv i b

/-- The blocking loop shared by both blocked assembly paths: starting
at point i, process full blocks of BS points while i + BS <= n, then
process the trailing block of n - i points when any points remain.
g i b is the contribution of the block of b points starting at i. -/
def contractFrom {M : Type} [AddCommMonoid M] (BS n : ℕ) (g : ℕ → ℕ → M)
    (i : ℕ) : M :=
  if h : 0 < BS ∧ i + BS ≤ n then
    g i BS + contractFrom BS n g (i + BS)
  else if i < n then g i (n - i) else 0
termination_by n - i
decreasing_by omega

/-- Blocked contraction of an n-point rule, started at point 0. -/
def contract {M : Type} [AddCommMonoid M] (BS n : ℕ) (g : ℕ → ℕ → M) : M :=
  contractFrom BS n g 0

/-- Full blocked contraction of one proxy pair over an n-point rule. -/
def pairContract {d1 d2 nd : ℕ} (BS n : ℕ)
    (bmat1 : ℕ → Matrix (Fin d1) (Fin nd) α)
    (bmat2 : ℕ → Matrix (Fin d2) (Fin nd) α)
    (pv : ℕ → Matrix (Fin d2) (Fin d1) α) :
    Matrix (Fin nd) (Fin nd) α :=
  contract BS n (blockContrib bmat1 bmat2 pv)

/-- The single dense multiply of a stacked block equals the sum of the
per-point contractions of the points of the block. -/
theorem blockContrib_eq_sum {d1 d2 nd : ℕ}
    (bmat1 : ℕ → Matrix (Fin d1) (Fin nd) α)
    (bmat2 : ℕ → Matrix (Fin d2) (Fin nd) α)
    (pv : ℕ → Matrix (Fin d2) (Fin d1) α) (i b : ℕ) :
    blockContrib bmat1 bmat2 pv i b
      = ∑ j ∈ Finset.range b, pointContrib bmat1 bmat2 pv (i + j) := by
  ext h w
  simp only [blockContrib, pointContrib, Matrix.mul_apply, Matrix.transpose_apply,
    stackedBB, stackedBDB, Finset.sum_apply, Matrix.sum_apply]
  rw [Fintype.sum_prod_type, Finset.sum_range fun j => _]

/-- The blocking loop from point i computes the sum of the per-point
values over points i..n-1, for any positive block size, provided each
block contribution is the sum of its per-point values. -/
theorem contractFrom_eq_sum {M : Type} [AddCommMonoid M] (BS n : ℕ)
    (hBS : 0 < BS) (g : ℕ → ℕ → M) (f : ℕ → M)
    (hg : ∀ j b, g j b = ∑ jj ∈ Finset.range b, f (j + jj)) :
    ∀ i, contractFrom BS n g i = ∑ ii ∈ Finset.Ico i n, f ii := by
  have key : ∀ k i, n - i ≤ k → contractFrom BS n g i = ∑ ii ∈ Finset.Ico i n, f ii := by
    intro k
    induction k with
    | zero =>
        intro i hi
        rw [contractFrom]
        have h1 : ¬ (0 < BS ∧ i + BS ≤ n) := by omega
        have h2 : ¬ i < n := by omega
        rw [dif_neg h1, if_neg h2, Finset.Ico_eq_empty (by omega), Finset.sum_empty]
    | succ k ih =>
        intro i hi
        rw [contractFrom]
        by_cases hfull : 0 < BS ∧ i + BS ≤ n
        · rw [dif_pos hfull, ih (i + BS) (by omega), hg]
          rw [← Finset.sum_Ico_consecutive f (by omega : i ≤ i + BS) hfull.2]
          congr 1
          rw [Finset.sum_Ico_eq_sum_range]
          simp
        · rw [dif_neg hfull]
          by_cases hrest : i < n
          · rw [if_pos hrest, hg, Finset.sum_Ico_eq_sum_range]
          · rw [if_neg hrest, Finset.Ico_eq_empty (by omega), Finset.sum_empty]
  intro i
  exact key (n - i) i le_rfl

/-- Blocked contraction with any positive block size equals the plain
per-point sum over the whole rule. -/
theorem pairContract_eq_sum {d1 d2 nd : ℕ} (BS n : ℕ) (hBS : 0 < BS)
    (bmat1 : ℕ → Matrix (Fin d1) (Fin nd) α)
    (bmat2 : ℕ → Matrix (Fin d2) (Fin nd) α)
    (pv : ℕ → Matrix (Fin d2) (Fin d1) α) :
    pairContract BS n bmat1 bmat2 pv
      = ∑ ii ∈ Finset.range n, pointContrib bmat1 bmat2 pv ii := by
  rw [pairContract, contract,
    contractFrom_eq_sum BS n hBS _ _ (blockContrib_eq_sum bmat1 bmat2 pv) 0]
  rw [Finset.range_eq_Ico]

/-
Integrator embeddings.  The scalar CoefficientFunction tree is an
external collaborator; its point-wise Evaluate value under an attached
ProxyUserData is the function parameter ev (respectively evD for the
deriv column and evDD for the dderiv column of EvaluateDeriv and
EvaluateDDeriv, the tree being scalar-valued).  wt i is
mir[i].GetWeight(), the Jacobian-included quadrature weight, and n is
the number of points of the rule.
-/

/-- Restriction of an added block to the used-dof rectangle, modelling
elmat.Rows(r2).Cols(r1) += Trans(bbmat2.Cols(r2)) * bdbmat1.Cols(r1)
(line 379): entry (h, w) of the written block equals entry (h, w) of
the full product, and nothing is written outside the rectangle. -/
def restrictRect {nd : ℕ} (r2 r1 : Finset (Fin nd))
    (m : Matrix (Fin nd) (Fin nd) α) : Matrix (Fin nd) (Fin nd) α :=
  fun h w => if h ∈ r2 ∧ w ∈ r1 then m h w else 0

/-- Sum of a matrix-valued function over a list, entry-wise. -/
theorem list_sum_apply {nd : ℕ} {β : Type} (l : List β)
    (f : β → Matrix (Fin nd) (Fin nd) α) (h w : Fin nd) :
    (l.map f).sum h w = (l.map fun p => f p h w).sum := by
  induction l with
  | nil => rfl
  | cons a l ih => simp [ih]

/-- Weighted proxy-pair tensor of T_CalcElementMatrix (lines 332-349):
entry (l, k) at point i is the tree value with trial proxy1 seeded at
component k and test proxy2 seeded at component l (no pinned dofs),
scaled by the quadrature weight of point i. -/
def bilinWPV {nd : ℕ} (ev : ProxyUserData α nd → ℕ → α) (wt : ℕ → α)
    (p1 p2 : ProxyFunction α nd) (i : ℕ) :
    Matrix (Fin p2.dim) (Fin p1.dim) α :=
  fun l k => wt i * ev ⟨some (p1.id, k.val), some (p2.id, l.val), none⟩ i

/-- Contribution of one (trial, test) proxy pair in T_CalcElementMatrix
(lines 327-408): blocked contraction of the weighted tensor against the
two operator basis matrices, written only into the rectangle of the
used-dof rows of the test operator and used-dof columns of the trial
operator. -/
def bilinearPairElmat {nd : ℕ} (BS n : ℕ)
    (ev : ProxyUserData α nd → ℕ → α) (wt : ℕ → α)
    (p1 p2 : ProxyFunction α nd) : Matrix (Fin nd) (Fin nd) α :=
  restrictRect p2.used p1.used
    (pairContract BS n p1.calcMatrix p2.calcMatrix (bilinWPV ev wt p1 p2))

/-- SymbolicBilinearFormIntegrator::T_CalcElementMatrix, volume path
(lines 309-408), with the block size of the point-blocked contraction
as a parameter: elmat is zeroed, then every (trial, test) pair adds its
contribution. -/
def bilinearElmatBS {nd : ℕ} (BS : ℕ)
    (ev : ProxyUserData α nd → ℕ → α) (wt : ℕ → α) (n : ℕ)
    (trials tests : List (ProxyFunction α nd)) : Matrix (Fin nd) (Fin nd) α :=
  (trials.map fun p1 => (tests.map fun p2 =>
    bilinearPairElmat BS n ev wt p1 p2).sum).sum

/-- T_CalcElementMatrix volume path with the block size fixed to the
source constant enum { BS = 16 } (line 359). -/
def bilinearElmat {nd : ℕ} (ev : ProxyUserData α nd → ℕ → α) (wt : ℕ → α)
    (n : ℕ) (trials tests : List (ProxyFunction α nd)) :
    Matrix (Fin nd) (Fin nd) α :=
  bilinearElmatBS 16 ev wt n trials tests

/-- Spec-side reference for the refinement claim on blocking: the naive
per-point contraction, summing the per-point products over all
quadrature points of the rule with no blocking, pair by pair. -/
def bilinearPairPointwise {nd : ℕ} (n : ℕ)
    (ev : ProxyUserData α nd → ℕ → α) (wt : ℕ → α)
    (p1 p2 : ProxyFunction α nd) : Matrix (Fin nd) (Fin nd) α :=
  restrictRect p2.used p1.used
    (∑ ii ∈ Finset.range n,
      pointContrib p1.calcMatrix p2.calcMatrix (bilinWPV ev wt p1 p2) ii)

/-- Spec-side reference: naive per-point volume assembly. -/
def bilinearElmatPointwise {nd : ℕ} (ev : ProxyUserData α nd → ℕ → α)
    (wt : ℕ → α) (n : ℕ) (trials tests : List (ProxyFunction α nd)) :
    Matrix (Fin nd) (Fin nd) α :=
  (trials.map fun p1 => (tests.map fun p2 =>
    bilinearPairPointwise n ev wt p1 p2).sum).sum

/-
SymbolicEnergy (lines 494-744).  The trial proxies stand for the
current nonlinear field; elx is the pinned element dof vector.
-/

/-- SymbolicEnergy::Energy (lines 680-701): pin the dofs, evaluate the
tree over the rule with no seeds, return the weighted sum. -/
def Energy {nd : ℕ} (ev : ProxyUserData α nd → ℕ → α) (wt : ℕ → α)
    (n : ℕ) (elx : Fin nd → α) : α :=
  ∑ i ∈ Finset.range n, wt i * ev ⟨none, none, some elx⟩ i

/-- SymbolicEnergy::ApplyElementMatrix (lines 703-744): per trial proxy
and component, pin the dofs, seed that component as trial, take the
deriv column of EvaluateDeriv, weight it, map it through ApplyTrans of
the proxy evaluator, and accumulate over the proxies. -/
def applyElementMatrix {nd : ℕ} (evD : ProxyUserData α nd → ℕ → α)
    (wt : ℕ → α) (n : ℕ) (trials : List (ProxyFunction α nd))
    (elx : Fin nd → α) : Fin nd → α :=
  (trials.map fun p =>
    p.applyTrans n (fun i k =>
      wt i * evD ⟨some (p.id, k), none, some elx⟩ i)).sum

/-- Seed direction induced by the deriv marks of
ProxyFunction::EvaluateDDeriv when the trial seed is a and the test
seed is b: indicator of the set of the two seeded
(proxy id, component) pairs (each mark stores the literal 1, so a
coinciding pair is still marked 1, not 2). -/
def seedInd {ι : Type} [DecidableEq ι] (a b : ι) : ι → α :=
  fun q => if q = a ∨ q = b then 1 else 0

/-- Tensor entry of the cross pass of CalcLinearizedElementMatrix
(lines 575-592): the raw EvaluateDDeriv value when the two seeded
(proxy, component) pairs coincide, otherwise the polarization
correction 0.5 * (combined - diagonal a - diagonal b), where the
diagonal values come from the diagonal pass (lines 549-564) seeding the
same pair as both trial and test, hence dd2 a a and dd2 b b. -/
def polarizedEntry {ι : Type} [DecidableEq ι] (dd2 : ι → ι → α)
    (a b : ι) : α :=
  if a = b then dd2 a b
  else (dd2 a b - dd2 a a - dd2 b b) * (1 / 2)

/-- Cross-pass tensor of CalcLinearizedElementMatrix for the ordered
proxy pair (proxy1, proxy2), entry (l, k) at point i: polarized entry
over the dderiv values of the tree with the pinned dofs attached,
trial seed (proxy1, k) and test seed (proxy2, l). -/
def hessPV {nd : ℕ} (evDD : ProxyUserData α nd → ℕ → α)
    (elx : Fin nd → α) (p1 p2 : ProxyFunction α nd) (i : ℕ)
    (l k : ℕ) : α :=
  polarizedEntry (fun a b => evDD ⟨some a, some b, some elx⟩ i)
    (p1.id, k) (p2.id, l)

/-- Weighted cross-pass tensor (line 613): scaled by the quadrature
weight of point i. -/
def hessWPV {nd : ℕ} (evDD : ProxyUserData α nd → ℕ → α)
    (elx : Fin nd → α) (wt : ℕ → α) (p1 p2 : ProxyFunction α nd)
    (i : ℕ) : Matrix (Fin p2.dim) (Fin p1.dim) α :=
  fun l k => wt i * hessPV evDD elx p1 p2 i l.val k.val

/-- Contribution of one ordered proxy pair in
CalcLinearizedElementMatrix (lines 567-675): blocked contraction of
the weighted polarized tensor, added to the full element matrix
(lines 638 and 659 add the whole product, with no used-dof
restriction). -/
def linearizedPairElmat {nd : ℕ} (BS n : ℕ)
    (evDD : ProxyUserData α nd → ℕ → α) (elx : Fin nd → α)
    (wt : ℕ → α) (p1 p2 : ProxyFunction α nd) :
    Matrix (Fin nd) (Fin nd) α :=
  pairContract BS n p1.calcMatrix p2.calcMatrix (hessWPV evDD elx wt p1 p2)

/-- SymbolicEnergy::CalcLinearizedElementMatrix (lines 518-676) with
the block size as a parameter: elmat is zeroed, then every ordered pair
of trial proxies adds its blocked contribution. -/
def linearizedElmatBS {nd : ℕ} (BS : ℕ)
    (evDD : ProxyUserData α nd → ℕ → α) (wt : ℕ → α) (n : ℕ)
    (trials : List (ProxyFunction α nd)) (elx : Fin nd → α) :
    Matrix (Fin nd) (Fin nd) α :=
  (trials.map fun p1 => (trials.map fun p2 =>
    linearizedPairElmat BS n evDD elx wt p1 p2).sum).sum

/-- CalcLinearizedElementMatrix with the source block size enum
{ BS = 16 } (line 621). -/
def linearizedElmat {nd : ℕ} (evDD : ProxyUserData α nd → ℕ → α)
    (wt : ℕ → α) (n : ℕ) (trials : List (ProxyFunction α nd))
    (elx : Fin nd → α) : Matrix (Fin nd) (Fin nd) α :=
  linearizedElmatBS 16 evDD wt n trials elx

/-- Spec-side reference: naive per-point contraction for one ordered
pair of the linearized matrix. -/
def linearizedPairPointwise {nd : ℕ} (n : ℕ)
    (evDD : ProxyUserData α nd → ℕ → α) (elx : Fin nd → α)
    (wt : ℕ → α) (p1 p2 : ProxyFunction α nd) :
    Matrix (Fin nd) (Fin nd) α :=
  ∑ ii ∈ Finset.range n,
    pointContrib p1.calcMatrix p2.calcMatrix (hessWPV evDD elx wt p1 p2) ii

/-- Spec-side reference: naive per-point linearized assembly. -/
def linearizedElmatPointwise {nd : ℕ}
    (evDD : ProxyUserData α nd → ℕ → α) (wt : ℕ → α) (n : ℕ)
    (trials : List (ProxyFunction α nd)) (elx : Fin nd → α) :
    Matrix (Fin nd) (Fin nd) α :=
  (trials.map fun p1 => (trials.map fun p2 =>
    linearizedPairPointwise n evDD elx wt p1 p2).sum).sum

/-- SymbolicLinearFormIntegrator::T_CalcElementVector (lines 182-218):
elvec is zeroed, then per test proxy and component the tree is
evaluated with that component seeded as test (no trial seed, no pinned
dofs), weighted, mapped through ApplyTrans, and accumulated. -/
def linearElvec {nd : ℕ} (ev : ProxyUserData α nd → ℕ → α)
    (wt : ℕ → α) (n : ℕ) (proxies : List (ProxyFunction α nd)) :
    Fin nd → α :=
  (proxies.map fun p =>
    p.applyTrans n (fun i k =>
      wt i * ev ⟨none, some (p.id, k), none⟩ i)).sum

/-
SymbolicBilinearFormIntegrator::T_CalcElementMatrixEB (lines 414-486).
D is the space dimension.  Per facet, per facet quadrature point, the
geometry data of the mapped point is external: w i is
ir_facet[i].Weight(), det i is mip.GetMeasure(), invJac i is
mip.GetJacobianInverse(), nrmRef is the reference normal of the facet.
The L2 norm computed by the source is a square root, which is not a
field operation; it enters as the field len together with its defining
property (len squared equals the sum of squares of the unnormalized
normal), which is a hypothesis of the theorems that use it.
-/

/-- Geometry data of one facet of the element-boundary path. -/
structure EBFacet (α : Type) (D : ℕ) where
  npts : ℕ
  w : ℕ → α
  det : ℕ → α
  invJac : ℕ → Matrix (Fin D) (Fin D) α
  nrmRef : Fin D → α
  len : ℕ → α

/-- Unnormalized physical normal of line 450:
det * Trans(inv_jac) * normal_ref. -/
def ebNormalRaw {D : ℕ} (f : EBFacet α D) (i : ℕ) : Fin D → α :=
  fun c => f.det i * ((f.invJac i)ᵀ.mulVec f.nrmRef) c

/-- Stored physical normal of line 452: the unnormalized normal divided
by its own length (which is also the facet surface measure). -/
def ebNormal {D : ℕ} (f : EBFacet α D) (i : ℕ) : Fin D → α :=
  fun c => ebNormalRaw f i c / f.len i

/-- Proxy-pair tensor of one facet point (lines 460-472): entry (l, k)
is ir_facet[i].Weight() * len * result(0), the tree being evaluated at
the mapped point with the stored normal exposed, trial proxy1 seeded at
k and test proxy2 seeded at l, and no pinned dofs. -/
def ebPV {D nd : ℕ}
    (ev : ℕ → ℕ → ProxyUserData α nd → (Fin D → α) → α)
    (f : EBFacet α D) (fct i : ℕ) (p1 p2 : ProxyFunction α nd) :
    Matrix (Fin p2.dim) (Fin p1.dim) α :=
  fun l k => f.w i * f.len i *
    ev fct i ⟨some (p1.id, k.val), some (p2.id, l.val), none⟩ (ebNormal f i)

/-- Per-point, per-pair contribution of the element-boundary path
(lines 474-482): one dense product Trans(bmat2) * (proxyvalues * bmat1)
added to the full element matrix, with no used-dof restriction. -/
def ebPointPairElmat {D nd : ℕ}
    (ev : ℕ → ℕ → ProxyUserData α nd → (Fin D → α) → α)
    (f : EBFacet α D) (fct i : ℕ) (p1 p2 : ProxyFunction α nd) :
    Matrix (Fin nd) (Fin nd) α :=
  (p2.calcMatrixEB fct i)ᵀ * (ebPV ev f fct i p1 p2 * p1.calcMatrixEB fct i)

/-- T_CalcElementMatrixEB (lines 414-486): elmat is zeroed, then the
contributions of every facet, facet point and (trial, test) proxy pair
are accumulated. -/
def ebElmat {D nd : ℕ} (nf : ℕ) (fac : ℕ → EBFacet α D)
    (ev : ℕ → ℕ → ProxyUserData α nd → (Fin D → α) → α)
    (trials tests : List (ProxyFunction α nd)) :
    Matrix (Fin nd) (Fin nd) α :=
  ∑ fct ∈ Finset.range nf, ∑ i ∈ Finset.range (fac fct).npts,
    (trials.map fun p1 => (tests.map fun p2 =>
      ebPointPairElmat ev (fac fct) fct i p1 p2).sum).sum

/-
Entry points with the caller-owned output buffer made explicit.  Each
run function receives the prior contents of the caller-owned buffer and
returns its final contents; the overwrite models the zero assignment
the source performs before any accumulation (elvec = 0 at line 199,
elmat = 0 at lines 325 and 422, ely = 0 at line 721). -/

/-- SymbolicLinearFormIntegrator::T_CalcElementVector as a buffer
transformer: the prior contents init are overwritten by elvec = 0
before the accumulation. -/
def runCalcElementVector {nd : ℕ} (init : Fin nd → α)
    (ev : ProxyUserData α nd → ℕ → α) (wt : ℕ → α) (n : ℕ)
    (proxies : List (ProxyFunction α nd)) : Fin nd → α :=
  let elvec := init
  let elvec := fun _ => (0 : α)
  elvec + linearElvec ev wt n proxies

/-- T_CalcElementMatrix volume path as a buffer transformer: the prior
contents init are overwritten by elmat = 0 before the pair loop. -/
def runCalcElementMatrix {nd : ℕ} (init : Matrix (Fin nd) (Fin nd) α)
    (ev : ProxyUserData α nd → ℕ → α) (wt : ℕ → α) (n : ℕ)
    (trials tests : List (ProxyFunction α nd)) :
    Matrix (Fin nd) (Fin nd) α :=
  let elmat := init
  let elmat := (0 : Matrix (Fin nd) (Fin nd) α)
  elmat + bilinearElmat ev wt n trials tests

/-- T_CalcElementMatrixEB as a buffer transformer: the prior contents
init are overwritten by elmat = 0 at line 422. -/
def runCalcElementMatrixEB {D nd : ℕ} (init : Matrix (Fin nd) (Fin nd) α)
    (nf : ℕ) (fac : ℕ → EBFacet α D)
    (ev : ℕ → ℕ → ProxyUserData α nd → (Fin D → α) → α)
    (trials tests : List (ProxyFunction α nd)) :
    Matrix (Fin nd) (Fin nd) α :=
  let elmat := init
  let elmat := (0 : Matrix (Fin nd) (Fin nd) α)
  elmat + ebElmat nf fac ev trials tests

/-- SymbolicEnergy::ApplyElementMatrix as a buffer transformer: the
prior contents init are overwritten by ely = 0 at line 721. -/
def runApplyElementMatrix {nd : ℕ} (init : Fin nd → α)
    (evD : ProxyUserData α nd → ℕ → α) (wt : ℕ → α) (n : ℕ)
    (trials : List (ProxyFunction α nd)) (elx : Fin nd → α) :
    Fin nd → α :=
  let ely := init
  let ely := fun _ => (0 : α)
  ely + applyElementMatrix evD wt n trials elx

/-
Concrete instances used by counterexamples and witnesses.
-/

/-- A concrete test-flagged proxy with one component over one local
dof, whose evaluator is the identity operator. -/
def cexProxyTest : ProxyFunction ℚ 1 where
  id := 0
  testflag := true
  dim := 1
  used := Finset.univ
  calcMatrix := fun _ => 1
  calcMatrixEB := fun _ _ => 1
  apply := fun elx _ _ => elx 0
  applyTrans := fun n vals _ => ∑ i ∈ Finset.range n, vals i 0

/-- A concrete trial-flagged proxy with one component over one local
dof, whose evaluator is the identity operator. -/
def cexProxyTrial : ProxyFunction ℚ 1 where
  id := 1
  testflag := false
  dim := 1
  used := Finset.univ
  calcMatrix := fun _ => 1
  calcMatrixEB := fun _ _ => 1
  apply := fun elx _ _ => elx 0
  applyTrans := fun n vals _ => ∑ i ∈ Finset.range n, vals i 0

/-- Helper: the pinned branch of the Evaluate body fires for a
non-test proxy with a pinned dof vector. -/
theorem evalCore_pin {nd : ℕ} (p : ProxyFunction α nd)
    (ud : ProxyUserData α nd) (i : ℕ) (elx : Fin nd → α)
    (hflag : p.testflag = false) (hpin : ud.pin = some elx) :
    p.evalCore ud i = p.apply elx i := by
  rw [ProxyFunction.evalCore, dif_pos ⟨hflag, by rw [hpin]; rfl⟩]
  exact congrFun (congrArg (fun v => p.apply v) (Option.get_of_mem _ hpin)) i

/-- Helper: with no applicable pin, the Evaluate body writes the
one-hot vector of the active seeds. -/
theorem evalCore_no_pin {nd : ℕ} (p : ProxyFunction α nd)
    (ud : ProxyUserData α nd) (i : ℕ)
    (hcase : p.testflag = true ∨ ud.pin = none) (c : Fin p.dim) :
    p.evalCore ud i c =
      if ud.testfunction = some (p.id, c.val) ∨
         ud.trialfunction = some (p.id, c.val)
      then 1 else 0 := by
  have hneg : ¬ (p.testflag = false ∧ ud.pin.isSome) := by
    rcases hcase with h | h <;> simp [h]
  rw [ProxyFunction.evalCore, dif_neg hneg]

/-- C3, counterexample: with userdata attached but no active seed and
no pinned dof vector, ProxyFunction::Evaluate silently returns the zero
vector instead of raising the missing-per-element-context error the
claim demands, so the claimed if-and-only-if error condition fails. -/
theorem evaluate_missing_context_cex :
    cexProxyTrial.Evaluate (some ⟨none, none, none⟩) 0
      = Except.ok (fun _ => (0 : ℚ)) := by
  rfl

/-- C3, amended: ProxyFunction::Evaluate raises its error exactly when
no userdata is attached to the transformation; with userdata attached
but neither a seed applying to this proxy nor a pinned dof vector, it
writes the zero vector (the second conjunct) rather than failing. -/
theorem evaluate_error_iff {nd : ℕ} (p : ProxyFunction α nd)
    (ud? : Option (ProxyUserData α nd)) (i : ℕ) :
    ((p.Evaluate ud? i).isOk = ud?.isSome) ∧
    (∀ ud : ProxyUserData α nd, ud? = some ud → ud.pin = none →
      ud.testfunction.map Prod.fst ≠ some p.id →
      ud.trialfunction.map Prod.fst ≠ some p.id →
      p.Evaluate ud? i = Except.ok (fun _ => 0)) := by
  constructor
  · cases ud? <;> rfl
  · rintro ud rfl hpin htest htrial
    show Except.ok (p.evalCore ud i) = Except.ok (fun _ => 0)
    congr 1
    funext c
    rw [evalCore_no_pin p ud i (Or.inr hpin) c]
    have h1 : ud.testfunction ≠ some (p.id, c.val) := fun h => htest (by rw [h]; rfl)
    have h2 : ud.trialfunction ≠ some (p.id, c.val) := fun h => htrial (by rw [h]; rfl)
    simp [h1, h2]

/-- C3 witness: the amended theorem applied to the concrete trial proxy
(identity 1) with userdata whose test and trial seeds name other
proxies (identities 0 and 2) and no pinned dof vector: Evaluate
silently returns the zero vector, with no error. -/
theorem evaluate_error_iff_witness :
    cexProxyTrial.Evaluate (some ⟨some (2, 0), some (0, 0), none⟩) 0
      = Except.ok (fun _ => (0 : ℚ)) :=
  (evaluate_error_iff cexProxyTrial (some ⟨some (2, 0), some (0, 0), none⟩) 0).2
    ⟨some (2, 0), some (0, 0), none⟩ rfl rfl (by decide) (by decide)

/-- C4, counterexample: seeding the concrete test proxy as the active
test function and calling EvaluateDDeriv leaves the dderiv output at 0
in the seeded component (the one-hot mark appears in deriv instead),
contradicting the claim that the seeded column of dderiv is set to 1. -/
theorem evaluateDDeriv_marks_cex :
    (cexProxyTest.evalDDerivCore ⟨none, some (0, 0), none⟩ 0).2.2 ⟨0, by decide⟩ = (0 : ℚ) ∧
    (cexProxyTest.evalDDerivCore ⟨none, some (0, 0), none⟩ 0).2.1 ⟨0, by decide⟩ = (1 : ℚ) ∧
    (0 : ℚ) ≠ 1 := by
  refine ⟨rfl, by decide, by decide⟩

/-- C4, amended: ProxyFunction::EvaluateDDeriv writes the one-hot seed
marks for whichever of the active test and trial proxies matches this
proxy — both simultaneously when both match — into the DERIV output
argument (the first-derivative array), setting the seeded component to
1 there, while the dderiv output argument is left identically zero. -/
theorem evaluateDDeriv_marks {nd : ℕ} (p : ProxyFunction α nd)
    (ud : ProxyUserData α nd) (i : ℕ) (c : Fin p.dim) :
    ((p.evalDDerivCore ud i).2.1 c = 1 ↔
      (ud.testfunction = some (p.id, c.val) ∨
       ud.trialfunction = some (p.id, c.val))) ∧
    (p.evalDDerivCore ud i).2.2 c = 0 := by
  constructor
  · simp only [ProxyFunction.evalDDerivCore]
    by_cases h : ud.testfunction = some (p.id, c.val) ∨
        ud.trialfunction = some (p.id, c.val)
    · simp [h]
    · simp [h]
  · rfl

/-- C5, counterexample: the concrete trial proxy is seeded as the
active trial proxy at component 0 while a dof vector with value 5 is
pinned; Evaluate applies the operator to the pinned dofs and returns 5,
not the one-hot value 1 the claim requires, so the pinned-field branch
takes precedence over the seed. -/
theorem evaluate_seed_precedence_cex :
    cexProxyTrial.evalCore ⟨some (1, 0), none, some (fun _ => 5)⟩ 0 ⟨0, by decide⟩ = (5 : ℚ) ∧
    (5 : ℚ) ≠ 1 := by
  refine ⟨by decide, by decide⟩

/-- C5, amended: in ProxyFunction::Evaluate with userdata attached, the
pinned-field branch takes precedence: whenever this proxy is not a test
function and a dof vector is pinned, its operator is applied to the
pinned dofs even if the proxy is itself the active seeded proxy; the
one-hot write (1 at an active component, else 0) happens only when the
proxy is a test function or no dof vector is pinned. -/
theorem evaluate_pin_precedence {nd : ℕ} (p : ProxyFunction α nd)
    (ud : ProxyUserData α nd) (i : ℕ) :
    (∀ elx, p.testflag = false → ud.pin = some elx →
      p.evalCore ud i = p.apply elx i) ∧
    ((p.testflag = true ∨ ud.pin = none) → ∀ c,
      p.evalCore ud i c =
        if ud.testfunction = some (p.id, c.val) ∨
           ud.trialfunction = some (p.id, c.val)
        then 1 else 0) :=
  ⟨fun elx hflag hpin => evalCore_pin p ud i elx hflag hpin,
   fun hcase c => evalCore_no_pin p ud i hcase c⟩

/-- C5 witness: the amended precedence theorem applied at the concrete
seeded-and-pinned input of the counterexample. -/
theorem evaluate_pin_precedence_witness :
    cexProxyTrial.evalCore ⟨some (1, 0), none, some (fun _ => 5)⟩ 0
      = cexProxyTrial.apply (fun _ => (5 : ℚ)) 0 :=
  (evaluate_pin_precedence cexProxyTrial ⟨some (1, 0), none, some (fun _ => 5)⟩ 0).1
    (fun _ => 5) rfl rfl

/-
Polarization correctness (claim C1).
-/

/-- Sum of B against two one-point indicators picks out one entry. -/
theorem sum_ind_single {ι : Type} [DecidableEq ι] (s : Finset ι)
    (B : ι → ι → α) (a b : ι) (ha : a ∈ s) (hb : b ∈ s) :
    ∑ q1 ∈ s, ∑ q2 ∈ s,
      B q1 q2 * (if q1 = a then (1 : α) else 0) * (if q2 = b then (1 : α) else 0)
      = B a b := by
  rw [Finset.sum_eq_single_of_mem a ha]
  · rw [Finset.sum_eq_single_of_mem b hb]
    · simp
    · intro c _ hc; simp [hc]
  · intro c _ hc; simp [hc]

/-- With distinct seeds the two-point indicator splits into the sum of
the one-point indicators. -/
theorem seedInd_split {ι : Type} [DecidableEq ι] (a b : ι) (hab : a ≠ b)
    (q : ι) :
    (seedInd a b q : α)
      = (if q = a then (1 : α) else 0) + (if q = b then (1 : α) else 0) := by
  by_cases h1 : q = a
  · subst h1
    simp [seedInd, hab]
  · by_cases h2 : q = b <;> simp [seedInd, h1, h2, Ne.symm hab]

/-- Coinciding seeds give the one-point indicator. -/
theorem seedInd_same {ι : Type} [DecidableEq ι] (a : ι) (q : ι) :
    (seedInd a a q : α) = (if q = a then (1 : α) else 0) := by
  simp [seedInd]

/-- Core polarization lemma: if the dderiv primitive returns the value
of a symmetric bilinear form B at the seed direction written by the
proxy marks (the indicator of the seeded pairs, over a support s), then
the cross-pass tensor entry recovers the exact mixed entry of B: the
raw value when the seeds coincide, and the halved difference of the
combined value and the two recorded diagonals otherwise. -/
theorem polarizedEntry_eq {ι : Type} [DecidableEq ι] (s : Finset ι)
    (B : ι → ι → α) (hsym : ∀ a b, B a b = B b a) (dd2 : ι → ι → α)
    (hdd : ∀ a b, a ∈ s → b ∈ s →
      dd2 a b = ∑ q1 ∈ s, ∑ q2 ∈ s,
        B q1 q2 * seedInd a b q1 * seedInd a b q2)
    (a b : ι) (ha : a ∈ s) (hb : b ∈ s) :
    polarizedEntry dd2 a b = B a b := by
  have hdiag : ∀ c, c ∈ s → dd2 c c = B c c := by
    intro c hc
    rw [hdd c c hc hc]
    calc ∑ q1 ∈ s, ∑ q2 ∈ s, B q1 q2 * seedInd c c q1 * seedInd c c q2
        = ∑ q1 ∈ s, ∑ q2 ∈ s,
            B q1 q2 * (if q1 = c then (1 : α) else 0) * (if q2 = c then (1 : α) else 0) := by
          simp only [seedInd_same]
      _ = B c c := sum_ind_single s B c c hc hc
  by_cases hab : a = b
  · subst hab
    rw [polarizedEntry, if_pos rfl, hdiag a ha]
  · have hsummand : ∀ q1 q2, B q1 q2 * seedInd a b q1 * seedInd a b q2
        = B q1 q2 * (if q1 = a then (1 : α) else 0) * (if q2 = a then (1 : α) else 0)
          + B q1 q2 * (if q1 = a then (1 : α) else 0) * (if q2 = b then (1 : α) else 0)
          + (B q1 q2 * (if q1 = b then (1 : α) else 0) * (if q2 = a then (1 : α) else 0)
             + B q1 q2 * (if q1 = b then (1 : α) else 0) * (if q2 = b then (1 : α) else 0)) := by
      intro q1 q2
      rw [seedInd_split a b hab q1, seedInd_split a b hab q2]
      ring
    have hcross : dd2 a b = B a a + B a b + (B b a + B b b) := by
      rw [hdd a b ha hb]
      simp only [hsummand, Finset.sum_add_distrib]
      rw [sum_ind_single s B a a ha ha, sum_ind_single s B a b ha hb,
        sum_ind_single s B b a hb ha, sum_ind_single s B b b hb hb]
    rw [polarizedEntry, if_neg hab, hcross, hdiag a ha, hdiag b hb, hsym b a]
    ring

/-- C1: in CalcLinearizedElementMatrix, the cross-pass tensor entry for
trial proxy1 at component k and test proxy2 at component l is the raw
EvaluateDDeriv value when (proxy1, k) = (proxy2, l) and the
polarization correction 0.5 * (combined - diagonal1 - diagonal2)
otherwise (the definition of hessPV through polarizedEntry); under the
hypothesis that the dderiv primitive is the quadratic form of a
symmetric bilinear form B in the seed direction written by the proxy
marks, the entry equals the exact mixed entry B((proxy1,k),(proxy2,l)),
and the weighted tensor entry used for contraction equals that entry
times the quadrature weight.  For the quadratic density with constant
matrix B this reproduces B times the contraction weight. -/
theorem linearized_tensor_polarization {nd : ℕ} (s : Finset (ℕ × ℕ))
    (B : ℕ × ℕ → ℕ × ℕ → α) (hsym : ∀ a b, B a b = B b a)
    (evDD : ProxyUserData α nd → ℕ → α) (elx : Fin nd → α) (i : ℕ)
    (hdd : ∀ a b, a ∈ s → b ∈ s →
      evDD ⟨some a, some b, some elx⟩ i
        = ∑ q1 ∈ s, ∑ q2 ∈ s, B q1 q2 * seedInd a b q1 * seedInd a b q2)
    (p1 p2 : ProxyFunction α nd) (kf : Fin p1.dim) (lf : Fin p2.dim)
    (h1 : ((p1.id, kf.val) : ℕ × ℕ) ∈ s)
    (h2 : ((p2.id, lf.val) : ℕ × ℕ) ∈ s) :
    hessPV evDD elx p1 p2 i lf.val kf.val = B (p1.id, kf.val) (p2.id, lf.val) ∧
    ∀ wt : ℕ → α, hessWPV evDD elx wt p1 p2 i lf kf
      = wt i * B (p1.id, kf.val) (p2.id, lf.val) := by
  have key : hessPV evDD elx p1 p2 i lf.val kf.val
      = B (p1.id, kf.val) (p2.id, lf.val) := by
    rw [hessPV]
    exact polarizedEntry_eq s B hsym _
      (fun a b ha hb => hdd a b ha hb) _ _ h1 h2
  exact ⟨key, fun wt => by rw [hessWPV, key]⟩

/-- C2: in both blocked volume assembly paths — T_CalcElementMatrix and
CalcLinearizedElementMatrix — the point-blocked contraction (full
blocks of BS quadrature points stacked into tall matrices and
contracted by one dense multiply, the trailing block handled
identically) accumulates, for every proxy pair, exactly the naive
per-point contraction sum over all quadrature points; any positive
block size, in particular the source constant 16, yields the same
element matrix. -/
theorem blocked_contraction_eq_pointwise {nd : ℕ} (BS : ℕ) (hBS : 0 < BS)
    (ev evDD : ProxyUserData α nd → ℕ → α) (wt : ℕ → α) (n : ℕ)
    (trials tests etrials : List (ProxyFunction α nd)) (elx : Fin nd → α) :
    bilinearElmatBS BS ev wt n trials tests
      = bilinearElmatPointwise ev wt n trials tests ∧
    linearizedElmatBS BS evDD wt n etrials elx
      = linearizedElmatPointwise evDD wt n etrials elx := by
  constructor
  · have hpair : ∀ p1 p2 : ProxyFunction α nd,
        bilinearPairElmat BS n ev wt p1 p2 = bilinearPairPointwise n ev wt p1 p2 := by
      intro p1 p2
      rw [bilinearPairElmat, bilinearPairPointwise,
        pairContract_eq_sum BS n hBS]
    simp only [bilinearElmatBS, bilinearElmatPointwise, hpair]
  · have hpair : ∀ p1 p2 : ProxyFunction α nd,
        linearizedPairElmat BS n evDD elx wt p1 p2
          = linearizedPairPointwise n evDD elx wt p1 p2 := by
      intro p1 p2
      rw [linearizedPairElmat, linearizedPairPointwise,
        pairContract_eq_sum BS n hBS]
    simp only [linearizedElmatBS, linearizedElmatPointwise, hpair]

/-
Concrete data for the blocking and polarization witnesses.
-/

/-- A second concrete trial-flagged proxy with a distinct identity. -/
def cexProxyTrial2 : ProxyFunction ℚ 1 where
  id := 2
  testflag := false
  dim := 1
  used := Finset.univ
  calcMatrix := fun _ => 1
  calcMatrixEB := fun _ _ => 1
  apply := fun elx _ _ => elx 0
  applyTrans := fun n vals _ => ∑ i ∈ Finset.range n, vals i 0

/-- Concrete seed support: the component-0 pairs of the two concrete
trial proxies. -/
def cexS : Finset (ℕ × ℕ) := {(1, 0), (2, 0)}

/-- Concrete dderiv semantics: the quadratic form of the constant
symmetric bilinear form with every entry 3 over the support cexS, in
the seed direction written by the proxy marks. -/
def cexEvDD : ProxyUserData ℚ 1 → ℕ → ℚ := fun ud _ =>
  match ud.trialfunction, ud.testfunction with
  | some a, some b =>
      ∑ q1 ∈ cexS, ∑ q2 ∈ cexS, (3 : ℚ) * seedInd a b q1 * seedInd a b q2
  | _, _ => 0

/-- Concrete tree value semantics for the blocking witness. -/
def cexEv : ProxyUserData ℚ 1 → ℕ → ℚ := fun _ i => (i : ℚ) + 1

/-- Concrete quadrature weights for the blocking witness. -/
def cexWt : ℕ → ℚ := fun i => (i : ℚ) + 2

/-- C1 witness: the polarization theorem applied to the two concrete
trial proxies with the constant symmetric form 3 over cexS, at the
distinct pair ((1,0),(2,0)), recovering the mixed entry 3. -/
theorem linearized_tensor_polarization_witness :
    ((1, 0) : ℕ × ℕ) ∈ cexS ∧ ((2, 0) : ℕ × ℕ) ∈ cexS ∧
    hessPV cexEvDD (fun _ => 0) cexProxyTrial cexProxyTrial2 0 0 0 = 3 :=
  ⟨by decide, by decide,
    (linearized_tensor_polarization cexS (fun _ _ => 3) (fun _ _ => rfl)
      cexEvDD (fun _ => 0) 0 (fun _ _ _ _ => rfl)
      cexProxyTrial cexProxyTrial2 ⟨0, by decide⟩ ⟨0, by decide⟩
      (by decide) (by decide)).1⟩

/-- C2 witness: the blocking theorem applied with block size 3 to a
five-point rule over the concrete proxies, for both assembly paths. -/
theorem blocked_contraction_eq_pointwise_witness :
    0 < 3 ∧
    bilinearElmatBS 3 cexEv cexWt 5 [cexProxyTrial] [cexProxyTest]
      = bilinearElmatPointwise cexEv cexWt 5 [cexProxyTrial] [cexProxyTest] ∧
    linearizedElmatBS 3 cexEvDD cexWt 5 [cexProxyTrial, cexProxyTrial2] (fun _ => 0)
      = linearizedElmatPointwise cexEvDD cexWt 5 [cexProxyTrial, cexProxyTrial2] (fun _ => 0) :=
  ⟨by decide,
    (blocked_contraction_eq_pointwise 3 (by decide) cexEv cexEvDD cexWt 5
      [cexProxyTrial] [cexProxyTest] [cexProxyTrial, cexProxyTrial2] (fun _ => 0)).1,
    (blocked_contraction_eq_pointwise 3 (by decide) cexEv cexEvDD cexWt 5
      [cexProxyTrial] [cexProxyTest] [cexProxyTrial, cexProxyTrial2] (fun _ => 0)).2⟩

/-
Superposition (claim C9).
-/

/-- Sum over a list of the pointwise sum of two functions. -/
theorem list_sum_map_add {β M : Type} [AddCommMonoid M] (l : List β)
    (f g : β → M) :
    (l.map fun x => f x + g x).sum = (l.map f).sum + (l.map g).sum := by
  induction l with
  | nil => simp
  | cons a l ih => simp [ih, add_add_add_comm]

/-- Per-point contraction is additive in the tensor. -/
theorem pointContrib_add {d1 d2 nd : ℕ}
    (bmat1 : ℕ → Matrix (Fin d1) (Fin nd) α)
    (bmat2 : ℕ → Matrix (Fin d2) (Fin nd) α)
    (pv1 pv2 : ℕ → Matrix (Fin d2) (Fin d1) α) (ii : ℕ) :
    pointContrib bmat1 bmat2 (fun i => pv1 i + pv2 i) ii
      = pointContrib bmat1 bmat2 pv1 ii + pointContrib bmat1 bmat2 pv2 ii := by
  unfold pointContrib
  rw [Matrix.add_mul, Matrix.mul_add]

/-- Rectangle restriction is additive. -/
theorem restrictRect_add {nd : ℕ} (r2 r1 : Finset (Fin nd))
    (m1 m2 : Matrix (Fin nd) (Fin nd) α) :
    restrictRect r2 r1 (m1 + m2) = restrictRect r2 r1 m1 + restrictRect r2 r1 m2 := by
  funext h w
  by_cases hm : h ∈ r2 ∧ w ∈ r1 <;> simp [restrictRect, hm, Matrix.add_apply]

/-- The volume tensor is additive in the tree value semantics. -/
theorem bilinWPV_add {nd : ℕ} (ev1 ev2 : ProxyUserData α nd → ℕ → α)
    (wt : ℕ → α) (p1 p2 : ProxyFunction α nd) (i : ℕ) :
    bilinWPV (fun ud j => ev1 ud j + ev2 ud j) wt p1 p2 i
      = bilinWPV ev1 wt p1 p2 i + bilinWPV ev2 wt p1 p2 i := by
  funext l k
  simp [bilinWPV, Matrix.add_apply, mul_add]

/-- C9: volume bilinear assembly is additive in the integrand — with
the proxy lists and element data held fixed, assembling the pointwise
sum of two scalar tree semantics yields the sum of the two separately
assembled element matrices (the hypothesis of the claim, that the sum
node evaluates pointwise to the sum of the operands, is the definition
of the summed semantics here). -/
theorem bilinear_superposition {nd : ℕ}
    (ev1 ev2 : ProxyUserData α nd → ℕ → α) (wt : ℕ → α) (n : ℕ)
    (trials tests : List (ProxyFunction α nd)) :
    bilinearElmat (fun ud i => ev1 ud i + ev2 ud i) wt n trials tests
      = bilinearElmat ev1 wt n trials tests + bilinearElmat ev2 wt n trials tests := by
  have hBS : (0 : ℕ) < 16 := by norm_num
  have hpt : ∀ ev : ProxyUserData α nd → ℕ → α,
      bilinearElmat ev wt n trials tests = bilinearElmatPointwise ev wt n trials tests := by
    intro ev
    have hpair : ∀ p1 p2 : ProxyFunction α nd,
        bilinearPairElmat 16 n ev wt p1 p2 = bilinearPairPointwise n ev wt p1 p2 := by
      intro p1 p2
      rw [bilinearPairElmat, bilinearPairPointwise, pairContract_eq_sum 16 n hBS]
    simp only [bilinearElmat, bilinearElmatBS, bilinearElmatPointwise, hpair]
  rw [hpt, hpt, hpt]
  have hpair : ∀ p1 p2 : ProxyFunction α nd,
      bilinearPairPointwise n (fun ud i => ev1 ud i + ev2 ud i) wt p1 p2
        = bilinearPairPointwise n ev1 wt p1 p2 + bilinearPairPointwise n ev2 wt p1 p2 := by
    intro p1 p2
    unfold bilinearPairPointwise
    rw [← restrictRect_add]
    have hpv : bilinWPV (fun ud j => ev1 ud j + ev2 ud j) wt p1 p2
        = fun i => bilinWPV ev1 wt p1 p2 i + bilinWPV ev2 wt p1 p2 i :=
      funext (bilinWPV_add ev1 ev2 wt p1 p2)
    have hptc : ∀ ii, pointContrib p1.calcMatrix p2.calcMatrix
          (bilinWPV (fun ud j => ev1 ud j + ev2 ud j) wt p1 p2) ii
        = pointContrib p1.calcMatrix p2.calcMatrix (bilinWPV ev1 wt p1 p2) ii
          + pointContrib p1.calcMatrix p2.calcMatrix (bilinWPV ev2 wt p1 p2) ii := by
      intro ii
      rw [hpv, pointContrib_add]
    simp only [hptc]
    rw [Finset.sum_add_distrib]
  simp only [bilinearElmatPointwise, hpair]
  have hin : ∀ p1 : ProxyFunction α nd,
      (tests.map fun p2 => bilinearPairPointwise n ev1 wt p1 p2
          + bilinearPairPointwise n ev2 wt p1 p2).sum
        = (tests.map fun p2 => bilinearPairPointwise n ev1 wt p1 p2).sum
          + (tests.map fun p2 => bilinearPairPointwise n ev2 wt p1 p2).sum :=
    fun p1 => list_sum_map_add tests _ _
  simp only [hin]
  exact list_sum_map_add trials _ _

/-- C10: every output-producing entry point overwrites the caller-owned
output buffer with zero before any accumulation (elvec = 0 at line 199,
elmat = 0 at lines 325 and 422, ely = 0 at line 721), so two runs on
the same inputs that differ only in the prior contents of the output
buffer write identical results. -/
theorem output_buffer_independence {D nd : ℕ}
    (init1v init2v : Fin nd → α) (init1m init2m : Matrix (Fin nd) (Fin nd) α)
    (ev evD : ProxyUserData α nd → ℕ → α) (wt : ℕ → α) (n : ℕ)
    (proxies trials tests etrials : List (ProxyFunction α nd))
    (nf : ℕ) (fac : ℕ → EBFacet α D)
    (evE : ℕ → ℕ → ProxyUserData α nd → (Fin D → α) → α)
    (elx : Fin nd → α) :
    runCalcElementVector init1v ev wt n proxies
      = runCalcElementVector init2v ev wt n proxies ∧
    runCalcElementMatrix init1m ev wt n trials tests
      = runCalcElementMatrix init2m ev wt n trials tests ∧
    runCalcElementMatrixEB init1m nf fac evE trials tests
      = runCalcElementMatrixEB init2m nf fac evE trials tests ∧
    runApplyElementMatrix init1v evD wt n etrials elx
      = runApplyElementMatrix init2v evD wt n etrials elx :=
  ⟨rfl, rfl, rfl, rfl⟩

/-- C8: in the element-boundary path, the stored physical normal is
(measure * transpose of the inverse Jacobian * reference normal)
divided by its own Euclidean length (first conjunct, the definition of
lines 450-452); under the defining property of the L2 norm (its square
is the sum of squares of the unnormalized vector, and it is nonzero)
the stored normal has unit length (second conjunct); and that same
length scales every tensor entry of the facet point together with the
facet quadrature weight (third conjunct, lines 460-472). -/
theorem eb_normal_unit_and_scale {D nd : ℕ} (f : EBFacet α D) (i : ℕ)
    (hlen : f.len i ^ 2 = ∑ c, ebNormalRaw f i c ^ 2)
    (hne : f.len i ≠ 0) :
    (∀ c, ebNormal f i c
        = f.det i * ((f.invJac i)ᵀ.mulVec f.nrmRef) c / f.len i) ∧
    (∑ c, ebNormal f i c ^ 2 = 1) ∧
    (∀ (ev : ℕ → ℕ → ProxyUserData α nd → (Fin D → α) → α) (fct : ℕ)
       (p1 p2 : ProxyFunction α nd) (lf : Fin p2.dim) (kf : Fin p1.dim),
      ebPV ev f fct i p1 p2 lf kf
        = f.w i * f.len i *
            ev fct i ⟨some (p1.id, kf.val), some (p2.id, lf.val), none⟩
              (ebNormal f i)) := by
  refine ⟨fun c => rfl, ?_, fun ev fct p1 p2 lf kf => rfl⟩
  have hsq : ∑ c, ebNormal f i c ^ 2
      = (∑ c, ebNormalRaw f i c ^ 2) / f.len i ^ 2 := by
    rw [Finset.sum_div]
    exact Finset.sum_congr rfl fun c _ => div_pow _ _ 2
  rw [hsq, ← hlen, div_self (pow_ne_zero 2 hne)]

/-- Concrete facet data for the boundary-normal witness: identity
inverse Jacobian, unit measure, reference normal (3, 4), length 5. -/
def cexFacet : EBFacet ℚ 2 where
  npts := 1
  w := fun _ => 1
  det := fun _ => 1
  invJac := fun _ => 1
  nrmRef := ![3, 4]
  len := fun _ => 5

/-- C8 witness: the boundary-normal theorem applied to the concrete
facet whose unnormalized normal is (3, 4) with length 5. -/
theorem eb_normal_unit_and_scale_witness :
    cexFacet.len 0 ^ 2 = (∑ c, ebNormalRaw cexFacet 0 c ^ 2) ∧
    cexFacet.len 0 ≠ 0 ∧
    (∑ c, ebNormal cexFacet 0 c ^ 2) = (1 : ℚ) := by
  have hlen : cexFacet.len 0 ^ 2 = (∑ c, ebNormalRaw cexFacet 0 c ^ 2) := by
    norm_num [cexFacet, ebNormalRaw, Matrix.mulVec, Matrix.dotProduct,
      Fin.sum_univ_two, Matrix.one_apply, Matrix.transpose_apply]
  have hne : cexFacet.len 0 ≠ 0 := by norm_num [cexFacet]
  exact ⟨hlen, hne,
    (@eb_normal_unit_and_scale ℚ _ 2 1 cexFacet 0 hlen hne).2.1⟩

/-
Scenario B (claim C6): a single scalar trial proxy with one local dof
and the identity differential operator (basis matrix 1, Apply reads the
single dof, ApplyTrans sums the weighted values), and a one-point rule
whose Jacobian-included weight is the element measure M.
-/

/-- Scenario B proxy: scalar trial proxy, one dof, identity operator. -/
def scenProxy (α : Type) [LinearOrderedField α] : ProxyFunction α 1 where
  id := 0
  testflag := false
  dim := 1
  used := Finset.univ
  calcMatrix := fun _ => 1
  calcMatrixEB := fun _ _ => 1
  apply := fun elx _ _ => elx 0
  applyTrans := fun n vals _ => ∑ i ∈ Finset.range n, vals i 0

/-- Scenario B tree value: the density f(u) = u^2 / 2 evaluated at the
proxy value delivered by the Evaluate protocol. -/
def scenEv (α : Type) [LinearOrderedField α] : ProxyUserData α 1 → ℕ → α :=
  fun ud i => ((scenProxy α).evalCore ud i ⟨0, Nat.one_pos⟩) ^ 2 / 2

/-- Scenario B deriv column of EvaluateDeriv on the tree: the chain
rule of f through the proxy, f'(value) * (proxy deriv mark), with
f'(v) = v. -/
def scenEvD (α : Type) [LinearOrderedField α] : ProxyUserData α 1 → ℕ → α :=
  fun ud i =>
    ((scenProxy α).evalDerivCore ud i).1 ⟨0, Nat.one_pos⟩ *
      ((scenProxy α).evalDerivCore ud i).2 ⟨0, Nat.one_pos⟩

/-- Scenario B dderiv column of EvaluateDDeriv on the tree: the second
order chain rule of f through the proxy,
f''(value) * mark^2 + f'(value) * (proxy dderiv), with f'' = 1. -/
def scenEvDD (α : Type) [LinearOrderedField α] : ProxyUserData α 1 → ℕ → α :=
  fun ud i =>
    ((scenProxy α).evalDDerivCore ud i).2.1 ⟨0, Nat.one_pos⟩ ^ 2 +
      ((scenProxy α).evalDDerivCore ud i).1 ⟨0, Nat.one_pos⟩ *
        ((scenProxy α).evalDDerivCore ud i).2.2 ⟨0, Nat.one_pos⟩

/-- Per-point contraction against identity basis matrices returns the
tensor itself. -/
theorem pointContrib_one {nd : ℕ} (bmat1 bmat2 : ℕ → Matrix (Fin nd) (Fin nd) α)
    (pv : ℕ → Matrix (Fin nd) (Fin nd) α) (ii : ℕ)
    (h1 : bmat1 ii = 1) (h2 : bmat2 ii = 1) :
    pointContrib bmat1 bmat2 pv ii = pv ii := by
  rw [pointContrib, h1, h2, Matrix.transpose_one, Matrix.one_mul, Matrix.mul_one]

/-- C6: for the energy density f(u) = 0.5 u^2 with a single scalar
trial proxy, one local dof, the identity operator and a single
quadrature point of Jacobian-included weight M, Energy returns
0.5 M u^2, ApplyElementMatrix returns the gradient vector of value
M u, and CalcLinearizedElementMatrix returns the Hessian matrix of
entry M. -/
theorem scenario_b_energy_grad_hess (u M : α) :
    (Energy (scenEv α) (fun _ => M) 1 (fun _ => u) = M * u ^ 2 / 2) ∧
    (applyElementMatrix (scenEvD α) (fun _ => M) 1 [scenProxy α] (fun _ => u)
      = fun _ => M * u) ∧
    (linearizedElmat (scenEvDD α) (fun _ => M) 1 [scenProxy α] (fun _ => u)
      = fun _ _ => M) := by
  have hval : ∀ (t s : Option (ℕ × ℕ)) (elx : Fin 1 → α) (i : ℕ),
      (scenProxy α).evalCore ⟨t, s, some elx⟩ i = fun _ => elx 0 := fun t s elx i =>
    evalCore_pin (scenProxy α) ⟨t, s, some elx⟩ i elx rfl rfl
  refine ⟨?_, ?_, ?_⟩
  · rw [Energy, Finset.sum_range_one, scenEv, hval]
    ring
  · have hD : ∀ pr : ℕ × ℕ, pr = (0, 0) →
        scenEvD α ⟨some pr, none, some (fun _ => u)⟩ 0 = u := by
      rintro pr rfl
      simp [scenEvD, ProxyFunction.evalDerivCore, scenProxy]
    funext d
    simp only [applyElementMatrix, List.map_cons, List.map_nil, List.sum_cons,
      List.sum_nil, add_zero]
    rw [show (scenProxy α).applyTrans
        = fun n vals _ => ∑ i ∈ Finset.range n, vals i ⟨0, Nat.one_pos⟩ from rfl]
    simp only [Finset.sum_range_one]
    show M * scenEvD α ⟨some (0, 0), none, some fun _ => u⟩ 0 = M * u
    rw [hD (0, 0) rfl]
  · have hDD : ∀ pr1 pr2 : ℕ × ℕ, pr1 = (0, 0) → pr2 = (0, 0) →
        scenEvDD α ⟨some pr1, some pr2, some (fun _ => u)⟩ 0 = 1 := by
      rintro pr1 pr2 rfl rfl
      simp [scenEvDD, ProxyFunction.evalDDerivCore, scenProxy]
    have h16 : (0 : ℕ) < 16 := by norm_num
    simp only [linearizedElmat, linearizedElmatBS, List.map_cons, List.map_nil,
      List.sum_cons, List.sum_nil, add_zero, linearizedPairElmat]
    rw [pairContract_eq_sum 16 1 h16, Finset.sum_range_one,
      pointContrib_one _ _ _ 0 rfl rfl]
    funext h w
    have hh0 : (h : ℕ) = 0 := Nat.lt_one_iff.mp h.isLt
    have hw0 : (w : ℕ) = 0 := Nat.lt_one_iff.mp w.isLt
    show M * hessPV (scenEvDD α) (fun _ => u) (scenProxy α) (scenProxy α) 0
        (h : ℕ) (w : ℕ) = M
    rw [hh0, hw0, hessPV, polarizedEntry, if_pos rfl]
    show M * scenEvDD α ⟨some (0, 0), some (0, 0), some fun _ => u⟩ 0 = M
    rw [hDD (0, 0) (0, 0) rfl rfl, mul_one]

/-
Used-dof frame property (claim C7).  The volume bilinear path restricts
its writes to the used-dof rectangle syntactically (line 379); the
element-boundary path and the linearized path add full-size products,
and the vector paths write whole ApplyTrans outputs, so for those the
support property rests on the external DifferentialOperator contract:
CalcMatrix has zero columns outside UsedDofs and ApplyTrans writes
zeros outside UsedDofs.
-/

/-- Sum of a vector-valued function over a list, entry-wise. -/
theorem list_sum_applyV {nd : ℕ} {β : Type} (l : List β)
    (f : β → (Fin nd → α)) (d : Fin nd) :
    (l.map f).sum d = (l.map fun p => f p d).sum := by
  induction l with
  | nil => rfl
  | cons a l ih => simp [ih]

/-- A per-point contraction entry vanishes when the test basis column
of the row index vanishes or the trial basis column of the column index
vanishes. -/
theorem pointContrib_outside {d1 d2 nd : ℕ}
    (bmat1 : ℕ → Matrix (Fin d1) (Fin nd) α)
    (bmat2 : ℕ → Matrix (Fin d2) (Fin nd) α)
    (pv : ℕ → Matrix (Fin d2) (Fin d1) α) (ii : ℕ) (h w : Fin nd)
    (hcase : (∀ c, bmat2 ii c h = 0) ∨ (∀ k, bmat1 ii k w = 0)) :
    pointContrib bmat1 bmat2 pv ii h w = 0 := by
  rcases hcase with hc | hc
  · simp [pointContrib, Matrix.mul_apply, Matrix.transpose_apply, hc]
  · simp [pointContrib, Matrix.mul_apply, hc]

/-- C7: in every assembly path — volume bilinear, element-boundary
bilinear, linear form, energy gradient, energy Hessian — each
proxy-pair contribution lands only in the used-dof rows of the test
operator and used-dof columns of the trial operator (respectively the
used-dof subrange of the vector): every entry of the caller-owned
output outside the union of the used-dof rectangles is zero.  The
volume path needs no operator hypothesis (its write is restricted
syntactically); the other paths use the operator contract that
CalcMatrix and ApplyTrans are supported on the used dofs. -/
theorem used_dofs_frame {D nd : ℕ}
    (ev evD evDD : ProxyUserData α nd → ℕ → α) (wt : ℕ → α) (n : ℕ)
    (trials tests lfproxies etrials : List (ProxyFunction α nd))
    (nf : ℕ) (fac : ℕ → EBFacet α D)
    (evE : ℕ → ℕ → ProxyUserData α nd → (Fin D → α) → α)
    (elx : Fin nd → α)
    (hCMeb : ∀ p ∈ trials ++ tests, ∀ fct < nf, ∀ i < (fac fct).npts,
      ∀ c d, d ∉ p.used → p.calcMatrixEB fct i c d = 0)
    (hCMh : ∀ p ∈ etrials, ∀ i < n, ∀ c d, d ∉ p.used → p.calcMatrix i c d = 0)
    (hAT : ∀ p ∈ lfproxies, ∀ vals d, d ∉ p.used → p.applyTrans n vals d = 0)
    (hATg : ∀ p ∈ etrials, ∀ vals d, d ∉ p.used → p.applyTrans n vals d = 0) :
    (∀ h w : Fin nd,
      (∀ p1 ∈ trials, ∀ p2 ∈ tests, ¬(h ∈ p2.used ∧ w ∈ p1.used)) →
      bilinearElmat ev wt n trials tests h w = 0) ∧
    (∀ h w : Fin nd,
      (∀ p1 ∈ trials, ∀ p2 ∈ tests, ¬(h ∈ p2.used ∧ w ∈ p1.used)) →
      ebElmat nf fac evE trials tests h w = 0) ∧
    (∀ d : Fin nd, (∀ p ∈ lfproxies, d ∉ p.used) →
      linearElvec ev wt n lfproxies d = 0) ∧
    (∀ d : Fin nd, (∀ p ∈ etrials, d ∉ p.used) →
      applyElementMatrix evD wt n etrials elx d = 0) ∧
    (∀ h w : Fin nd,
      (∀ p1 ∈ etrials, ∀ p2 ∈ etrials, ¬(h ∈ p2.used ∧ w ∈ p1.used)) →
      linearizedElmat evDD wt n etrials elx h w = 0) := by
  refine ⟨?_, ?_, ?_, ?_, ?_⟩
  · intro h w hout
    rw [bilinearElmat, bilinearElmatBS, list_sum_apply]
    apply List.sum_eq_zero
    intro x hx
    rw [List.mem_map] at hx
    obtain ⟨p1, hp1, rfl⟩ := hx
    rw [list_sum_apply]
    apply List.sum_eq_zero
    intro y hy
    rw [List.mem_map] at hy
    obtain ⟨p2, hp2, rfl⟩ := hy
    simp [bilinearPairElmat, restrictRect, hout p1 hp1 p2 hp2]
  · intro h w hout
    rw [ebElmat]
    simp only [Matrix.sum_apply]
    apply Finset.sum_eq_zero
    intro fct hfct
    apply Finset.sum_eq_zero
    intro i hi
    rw [list_sum_apply]
    apply List.sum_eq_zero
    intro x hx
    rw [List.mem_map] at hx
    obtain ⟨p1, hp1, rfl⟩ := hx
    rw [list_sum_apply]
    apply List.sum_eq_zero
    intro y hy
    rw [List.mem_map] at hy
    obtain ⟨p2, hp2, rfl⟩ := hy
    refine pointContrib_outside (fun _ => p1.calcMatrixEB fct i)
      (fun _ => p2.calcMatrixEB fct i)
      (fun _ => ebPV evE (fac fct) fct i p1 p2) 0 h w ?_
    by_cases hh : h ∈ p2.used
    · exact Or.inr fun k => hCMeb p1 (List.mem_append.mpr (Or.inl hp1)) fct
        (Finset.mem_range.mp hfct) i (Finset.mem_range.mp hi) k w
        (fun hw => hout p1 hp1 p2 hp2 ⟨hh, hw⟩)
    · exact Or.inl fun c => hCMeb p2 (List.mem_append.mpr (Or.inr hp2)) fct
        (Finset.mem_range.mp hfct) i (Finset.mem_range.mp hi) c h hh
  · intro d hout
    rw [linearElvec, list_sum_applyV]
    apply List.sum_eq_zero
    intro x hx
    rw [List.mem_map] at hx
    obtain ⟨p, hp, rfl⟩ := hx
    exact hAT p hp _ d (hout p hp)
  · intro d hout
    rw [applyElementMatrix, list_sum_applyV]
    apply List.sum_eq_zero
    intro x hx
    rw [List.mem_map] at hx
    obtain ⟨p, hp, rfl⟩ := hx
    exact hATg p hp _ d (hout p hp)
  · intro h w hout
    rw [linearizedElmat, linearizedElmatBS, list_sum_apply]
    apply List.sum_eq_zero
    intro x hx
    rw [List.mem_map] at hx
    obtain ⟨p1, hp1, rfl⟩ := hx
    rw [list_sum_apply]
    apply List.sum_eq_zero
    intro y hy
    rw [List.mem_map] at hy
    obtain ⟨p2, hp2, rfl⟩ := hy
    rw [linearizedPairElmat, pairContract_eq_sum 16 n (by norm_num),
      Matrix.sum_apply]
    apply Finset.sum_eq_zero
    intro ii hii
    refine pointContrib_outside _ _ _ ii h w ?_
    by_cases hh : h ∈ p2.used
    · exact Or.inr fun k => hCMh p1 hp1 ii (Finset.mem_range.mp hii) k w
        (fun hw => hout p1 hp1 p2 hp2 ⟨hh, hw⟩)
    · exact Or.inl fun c => hCMh p2 hp2 ii (Finset.mem_range.mp hii) c h hh

/-- Concrete proxy over two local dofs whose operator uses only dof 0:
basis columns and ApplyTrans output vanish at dof 1. -/
def cexProxyUsed : ProxyFunction ℚ 2 where
  id := 3
  testflag := false
  dim := 1
  used := {0}
  calcMatrix := fun _ => fun _ d => if d = 0 then 1 else 0
  calcMatrixEB := fun _ _ => fun _ d => if d = 0 then 1 else 0
  apply := fun elx _ _ => elx 0
  applyTrans := fun n vals d =>
    if d = 0 then ∑ i ∈ Finset.range n, vals i 0 else 0

/-- Concrete scalar tree semantics for the frame witness. -/
def cexFrameEv : ProxyUserData ℚ 2 → ℕ → ℚ := fun _ _ => 1

/-- Concrete quadrature weights for the frame witness. -/
def cexFrameWt : ℕ → ℚ := fun _ => 1

/-- Concrete element-boundary tree semantics for the frame witness. -/
def cexFrameEvE : ℕ → ℕ → ProxyUserData ℚ 2 → (Fin 2 → ℚ) → ℚ :=
  fun _ _ _ _ => 1

/-- C7 witness: the frame theorem applied to the concrete one-proxy
configuration whose operator uses only dof 0; the entry (1, 1)
(respectively component 1) of every assembled output is zero. -/
theorem used_dofs_frame_witness :
    bilinearElmat cexFrameEv cexFrameWt 1 [cexProxyUsed] [cexProxyUsed] 1 1 = 0 ∧
    ebElmat 1 (fun _ => cexFacet) cexFrameEvE [cexProxyUsed] [cexProxyUsed] 1 1 = 0 ∧
    linearElvec cexFrameEv cexFrameWt 1 [cexProxyUsed] 1 = 0 ∧
    applyElementMatrix cexFrameEv cexFrameWt 1 [cexProxyUsed] (fun _ => 0) 1 = 0 ∧
    linearizedElmat cexFrameEv cexFrameWt 1 [cexProxyUsed] (fun _ => 0) 1 1 = 0 := by
  have hmem : ∀ p : ProxyFunction ℚ 2,
      p ∈ ([cexProxyUsed] ++ [cexProxyUsed] : List (ProxyFunction ℚ 2)) →
      p = cexProxyUsed := by
    intro p hp
    simpa using hp
  have hd1 : ∀ d : Fin 2, d ∉ cexProxyUsed.used → ¬ d = 0 := by
    intro d hd
    simpa [cexProxyUsed] using hd
  have hCMeb : ∀ p ∈ ([cexProxyUsed] ++ [cexProxyUsed] : List (ProxyFunction ℚ 2)),
      ∀ fct < 1, ∀ i < (cexFacet).npts, ∀ (c : Fin _) (d : Fin 2),
      d ∉ p.used → p.calcMatrixEB fct i c d = 0 := by
    intro p hp fct _ i _ c d hd
    have hp2 := hmem p hp
    subst hp2
    simp [cexProxyUsed, hd1 d hd]
  have hCMh : ∀ p ∈ ([cexProxyUsed] : List (ProxyFunction ℚ 2)),
      ∀ i < 1, ∀ (c : Fin _) (d : Fin 2),
      d ∉ p.used → p.calcMatrix i c d = 0 := by
    intro p hp i _ c d hd
    have hp2 : p = cexProxyUsed := by simpa using hp
    subst hp2
    simp [cexProxyUsed, hd1 d hd]
  have hAT : ∀ p ∈ ([cexProxyUsed] : List (ProxyFunction ℚ 2)),
      ∀ (vals : ℕ → Fin _ → ℚ) (d : Fin 2),
      d ∉ p.used → p.applyTrans 1 vals d = 0 := by
    intro p hp vals d hd
    have hp2 : p = cexProxyUsed := by simpa using hp
    subst hp2
    simp [cexProxyUsed, hd1 d hd]
  obtain ⟨h1, h2, h3, h4, h5⟩ :=
    used_dofs_frame cexFrameEv cexFrameEv cexFrameEv cexFrameWt 1
      [cexProxyUsed] [cexProxyUsed] [cexProxyUsed] [cexProxyUsed]
      1 (fun _ => cexFacet) cexFrameEvE (fun _ => 0)
      hCMeb hCMh hAT hAT
  exact ⟨h1 1 1 (by decide), h2 1 1 (by decide), h3 1 (by decide),
    h4 1 (by decide), h5 1 1 (by decide)⟩

end NgFem
